import Mathlib

/-!
# Verification of the Connect-Four arena core

A shallow embedding, in Lean 4, of the core logic of the connect-four
arena (the `Board` state machine of `arena/board.py`, the reply handling
of `Player.process_move` in `arena/player.py`, the retry wrapper
`LLM.protected_send` of `arena/llm.py`, and the ELO rating engine of
`arena/record.py`), together with theorems settling the specification
claims about those components.

Conventions mirroring the Python source:
* cell values are integers: `RED = 1`, `YELLOW = -1`, `EMPTY = 0`;
* `cells` is a list of 6 rows of 7 entries, row 0 at the bottom,
  accessed as `cells[y][x]`;
* Python's out-of-range behaviour never arises on any path we model:
  every access in the source is guarded by an explicit bounds check,
  and those guards are embedded as written.
-/

namespace C4

/-- The colour constant `RED = 1` of `arena/board.py`. -/
def RED : Int := 1

/-- The colour constant `YELLOW = -1` of `arena/board.py`. -/
def YELLOW : Int := -1

/-- The colour constant `EMPTY = 0` of `arena/board.py`. -/
def EMPTY : Int := 0

/-- The column-name string `cols = "ABCDEFG"` of `arena/board.py`, as a list
of characters. -/
def colsChars : List Char := ['A', 'B', 'C', 'D', 'E', 'F', 'G']

/-- The grid: 6 rows (bottom first) of 7 cells each. -/
abbrev Cells := List (List Int)

/-- Read `cells[y][x]`.  The source only ever reads in bounds (every access
is guarded), so the `getD` defaults are never observed on modelled paths. -/
def getCell (cells : Cells) (y x : Nat) : Int :=
  (cells.getD y []).getD x 0

/-- Write `cells[y][x] = v`. -/
def setCell (cells : Cells) (y x : Nat) (v : Int) : Cells :=
  cells.set y ((cells.getD y []).set x v)

/-- The `Board` state of `arena/board.py`: the grid, the player to move,
the winner, the draw and forfeit flags, and the coordinates of the latest
move (used by the display only). -/
structure Board where
  cells : Cells
  player : Int
  winner : Int
  draw : Bool
  forfeit : Bool
  latest_x : Int
  latest_y : Int
deriving DecidableEq, Repr

/-- Board construction `Board.__init__`: empty cells, `RED` to play, no winner, no draw,
no forfeit, latest move `(-1, -1)`. -/
def boardInit : Board :=
  { cells := List.replicate 6 (List.replicate 7 0)
    player := RED
    winner := EMPTY
    draw := false
    forfeit := false
    latest_x := -1
    latest_y := -1 }

/-- The `while height < 6 and cells[height][x] != EMPTY` loop of
`Board.height`, starting from row `h`.  The guard `h < 6` is realised by
the first argument `fuel = 6 - h`, which the caller supplies, so that the
recursion is structural (and hence computes inside the kernel). -/
def heightLoop (cells : Cells) (x : Nat) : Nat → Nat → Nat
  | fuel + 1, h => if getCell cells h x ≠ 0 then heightLoop cells x fuel (h + 1) else h
  | 0, h => h

/-- Method `Board.height`: the number of occupied cells at the bottom of column
`x` (the loop starts at row 0, so the remaining fuel is 6). -/
def height (cells : Cells) (x : Nat) : Nat :=
  heightLoop cells x 6 0

/-- Method `Board.legal_moves`: the names of the columns that are not full,
in left-to-right order. -/
def legal_moves (b : Board) : List Char :=
  ((List.range 7).filter (fun x => height b.cells x < 6)).map
    (fun x => colsChars.getD x ' ')

/-- Method `Board.illegal_moves`: the names of the columns that are full. -/
def illegal_moves (b : Board) : List Char :=
  ((List.range 7).filter (fun x => height b.cells x = 6)).map
    (fun x => colsChars.getD x ' ')

/-- The bounds test `0 <= xp <= 6 and 0 <= yp <= 5` of
`Board.winning_line`. -/
def inBox (x y : Int) : Prop :=
  0 ≤ x ∧ x ≤ 6 ∧ 0 ≤ y ∧ y ≤ 5

instance (x y : Int) : Decidable (inBox x y) := by
  unfold inBox; infer_instance

/-- Read a cell addressed by `Int` coordinates `(x, y)`; only evaluated
under an `inBox` guard, mirroring the source's bounds check. -/
def getCellI (cells : Cells) (x y : Int) : Int :=
  getCell cells y.toNat x.toNat

/-- Method `Board.winning_line`: `cells[y][x]` if the three cells continuing from
`(x, y)` in direction `(dx, dy)` are on the board and hold the same colour,
else `EMPTY`.  The source's `for pointer in range(1, 4)` loop is unrolled:
it returns `EMPTY` at the first failing probe, which is the same as
requiring all three probes to succeed. -/
def winning_line (cells : Cells) (x y dx dy : Int) : Int :=
  let color := getCellI cells x y
  if (inBox (x + dx) (y + dy) ∧ getCellI cells (x + dx) (y + dy) = color) ∧
     (inBox (x + dx * 2) (y + dy * 2) ∧ getCellI cells (x + dx * 2) (y + dy * 2) = color) ∧
     (inBox (x + dx * 3) (y + dy * 3) ∧ getCellI cells (x + dx * 3) (y + dy * 3) = color)
  then color else 0

/-- The four canonical direction vectors of `Board.winning_cell`, in scan
order: vertical, rising diagonal, horizontal, falling diagonal. -/
def dirs : List (Int × Int) := [(0, 1), (1, 1), (1, 0), (1, -1)]

/-- Method `Board.winning_cell`: the first non-`EMPTY` `winning_line` result over
the four canonical directions, else `EMPTY` (the walrus-`if` chain of the
source). -/
def winning_cell (cells : Cells) (x y : Int) : Int :=
  let d1 := winning_line cells x y 0 1
  if d1 ≠ 0 then d1 else
  let d2 := winning_line cells x y 1 1
  if d2 ≠ 0 then d2 else
  let d3 := winning_line cells x y 1 0
  if d3 ≠ 0 then d3 else
  let d4 := winning_line cells x y 1 (-1)
  if d4 ≠ 0 then d4 else 0

/-- The scan order of `Board.wins`: `for y in range(6): for x in range(7)`,
as a list of `(x, y)` pairs. -/
def positions : List (Int × Int) :=
  (List.range 6).flatMap (fun (y : Nat) => (List.range 7).map (fun (x : Nat) => ((x : Int), (y : Int))))

/-- Method `Board.wins`: the first non-`EMPTY` `winning_cell` over the scan order,
else `EMPTY` (the nested `for` loops return at the first hit). -/
def wins (cells : Cells) : Int :=
  match positions.find? (fun p => winning_cell cells p.1 p.2 != 0) with
  | some p => winning_cell cells p.1 p.2
  | none => 0

/-- In the source, the draw test of `Board.move` reads
`elif not self.legal_moves:`.  `self.legal_moves` is the bound method
object — the call parentheses are missing — and a bound method is always
truthy in Python, so the tested condition is always `False`.  This
definition embeds that always-false condition. -/
def notLegalMovesAttr (b : Board) : Bool := false

/-- The body of `Board.move` once the landing row `y = height(x)` is known:
place the current player's piece, record the latest coordinates, then
either set the winner, or take the (unreachable, see `notLegalMovesAttr`)
draw branch, or toggle the player. -/
def moveCore (b : Board) (x : Nat) : Board :=
  let y := height b.cells x
  let cells := setCell b.cells y x b.player
  let b' := { b with cells := cells, latest_x := (x : Int), latest_y := (y : Int) }
  let w := wins cells
  if w ≠ 0 then { b' with winner := w }
  else if notLegalMovesAttr b' then { b' with draw := true }
  else { b' with player := -1 * b'.player }

/-- Method `Board.move` applied to a legal column: `none` when the column index is
out of range or the column is full (the source relies on its caller to
pre-validate; an illegal call would raise in Python). -/
def move? (b : Board) (x : Nat) : Option Board :=
  if x < 7 ∧ height b.cells x < 6 then some (moveCore b x) else none

/-- Apply a sequence of legal moves in order; `none` as soon as one of them
is illegal. -/
def applyMoves (b : Board) : List Nat → Option Board
  | [] => some b
  | x :: xs =>
    match move? b x with
    | some b' => applyMoves b' xs
    | none => none

/-- Method `Board.is_active`: `not self.winner and not self.draw` — with
`winner ∈ {0, 1, -1}`, Python truthiness makes this
`winner == 0 and not draw`. -/
def is_active (b : Board) : Bool :=
  decide (b.winner = 0) && !b.draw

/-- The number of occupied (non-`EMPTY`) cells of the grid. -/
def occupied (cells : Cells) : Nat :=
  (cells.map (List.countP (fun v => decide (v ≠ 0)))).sum

/-! ## Specification-side predicates for win detection

These are stated directly from the geometry of the grid (four consecutive
same-colour cells), independently of the scanning code, so that the
scanning code can be compared against them. -/

/-- The cells `(x + i·dx, y + i·dy)` for `i = 0, 1, 2, 3` are all on the
board and all hold colour `c`: a four-in-a-row of colour `c` starting at
`(x, y)` in direction `(dx, dy)`. -/
def runAt (cells : Cells) (x y dx dy c : Int) : Prop :=
  ∀ i : Nat, i < 4 →
    inBox (x + dx * i) (y + dy * i) ∧ getCellI cells (x + dx * i) (y + dy * i) = c

instance (cells : Cells) (x y dx dy c : Int) : Decidable (runAt cells x y dx dy c) := by
  unfold runAt; infer_instance

/-- The integers `0, 1, …, n - 1`, used to bound the existentials of
`hasRun` so that it stays decidable. -/
def intRange (n : Nat) : List Int :=
  (List.range n).map (fun (m : Nat) => (m : Int))

/-- Colour `c` has a four-in-a-row somewhere on the board, in one of the
four canonical orientations.  A run in one of the mirrored directions is
the same four cells read from the other end, so restricting to the four
canonical direction vectors loses no orientation. -/
def hasRun (cells : Cells) (c : Int) : Prop :=
  ∃ d ∈ dirs, ∃ x ∈ intRange 7, ∃ y ∈ intRange 6, runAt cells x y d.1 d.2 c

instance (cells : Cells) (c : Int) : Decidable (hasRun cells c) := by
  unfold hasRun; infer_instance

/-! ## The reply handling of `Player.process_move` (`arena/player.py`)

The raw reply and the `move_column` value are modelled as `List Char`
(Python strings).  The standard-library call `json.loads` is modelled as
an abstract parameter `parse : List Char → Option ParsedReply`: `none`
stands for any exception raised while parsing the text or reading fields
from a non-object result, `some r` for a successfully parsed object.  The
four rationale fields (`evaluation`, `threats`, `opportunities`,
`strategy`) are stored on the `Player` for display only and never touch
the board, so they are not modelled. -/

/-- The parsed reply object, as far as the board logic reads it: its
optional `move_column` field.  `none` covers a missing field and a JSON
`null`; a non-string value would raise at `.upper()` in the source and is
subsumed under an unparsable reply. -/
structure ParsedReply where
  move_column : Option (List Char)
deriving DecidableEq, Repr

/-- The fallback string `"missing"` that `process_move` substitutes for an
absent or falsy (empty) `move_column`. -/
def missingStr : List Char := ['m', 'i', 's', 's', 'i', 'n', 'g']

/-- The inner loop of Python's `str.find`: the least start index `j ≥ i`
at which `sub` occurs as a contiguous substring of `s`, else `-1`.  The
first argument is fuel (`s.length + 1 - i` suffices) keeping the recursion
structural. -/
def findFrom (s sub : List Char) : Nat → Nat → Int
  | fuel + 1, i =>
    if i + sub.length ≤ s.length then
      if (s.drop i).take sub.length = sub then (i : Int) else findFrom s sub fuel (i + 1)
    else -1
  | 0, _ => -1

/-- Python's `s.find(sub)`: least index of a contiguous occurrence of
`sub` in `s`, else `-1` (`""` is found at index 0). -/
def pyFind (s sub : List Char) : Int :=
  findFrom s sub (s.length + 1) 0

/-- Predicate for `sub` occurring as a contiguous substring of `s` at
start index `i`. -/
def isSubAt (s sub : List Char) (i : Nat) : Prop :=
  i + sub.length ≤ s.length ∧ (s.drop i).take sub.length = sub

instance (s sub : List Char) (i : Nat) : Decidable (isSubAt s sub i) := by
  unfold isSubAt; infer_instance

/-- Predicate for `sub` occurring as a contiguous substring of `s`
(anywhere).  The start index is bounded by `s.length` so the predicate is
decidable. -/
def isSubstring (s sub : List Char) : Prop :=
  ∃ i ∈ List.range (s.length + 1), isSubAt s sub i

instance (s sub : List Char) : Decidable (isSubstring s sub) := by
  unfold isSubstring; infer_instance

/-- The text `"move_column": "` preceded by the opening brace: the prefix
of the JSON fragment that the `{X}` special case of `process_move`
fabricates. -/
def jsonPrefix : List Char :=
  ['\x7b', '"', 'm', 'o', 'v', 'e', '_', 'c', 'o', 'l', 'u', 'm', 'n', '"', ':', ' ', '"']

/-- The closing quote and brace of the fabricated JSON fragment. -/
def jsonSuffix : List Char := ['"', '\x7d']

/-- The string `'{"move_column": "X"}'` that `process_move` substitutes
for a three-character reply `{X}`. -/
def mkMoveJson (c : Char) : List Char :=
  jsonPrefix ++ [c] ++ jsonSuffix

/-- The special case at the top of `process_move`: a reply of length
exactly 3 whose first character is `{` and whose last is `}` is replaced
by `mkMoveJson` of its middle character; any other reply passes through
unchanged. -/
def rewriteReply (reply : List Char) : List Char :=
  match reply with
  | [a, c, b] => if a = '\x7b' ∧ b = '\x7d' then mkMoveJson c else reply
  | _ => reply

/-- The `except` branch of `process_move`: `board.forfeit = True` and
`board.winner = -1 * board.player`; nothing else on the board changes. -/
def forfeitBoard (b : Board) : Board :=
  { b with forfeit := true, winner := -1 * b.player }

/-- The resolution `move = result.get("move_column") or "missing"`: an
absent field and the falsy empty string both fall back to `"missing"`. -/
def resolveMove (r : ParsedReply) : List Char :=
  match r.move_column with
  | none => missingStr
  | some [] => missingStr
  | some s => s

/-- Method `Player.process_move` restricted to its effect on the board:
apply the `{X}` special case, parse, resolve `move_column` (falling back
to `"missing"` when absent or empty), uppercase it, locate it in
`"ABCDEFG"` with `str.find`, and either play the move or, when the index
is out of range or the column is full — or anything before that failed —
take the forfeit branch. -/
def process_move (parse : List Char → Option ParsedReply) (reply : List Char)
    (b : Board) : Board :=
  let reply' := rewriteReply reply
  match parse reply' with
  | none => forfeitBoard b
  | some r =>
    let mv : List Char := resolveMove r
    let mvU := mv.map Char.toUpper
    let col : Int := pyFind colsChars mvU
    if 0 ≤ col ∧ col ≤ 6 then
      if height b.cells col.toNat = 6 then forfeitBoard b
      else moveCore b col.toNat
    else forfeitBoard b

/-- A concrete parser recognising exactly the one-field objects
`'{"move_column": "<text>"}'`, used as a concrete stand-in for the
abstract `parse` parameter when evaluating `process_move` on explicit
inputs.  Anything else parses to `none`. -/
def jsonParse (reply : List Char) : Option ParsedReply :=
  if jsonPrefix.length + jsonSuffix.length ≤ reply.length ∧
     reply.take jsonPrefix.length = jsonPrefix ∧
     reply.drop (reply.length - jsonSuffix.length) = jsonSuffix then
    some ⟨some ((reply.drop jsonPrefix.length).take
      (reply.length - jsonPrefix.length - jsonSuffix.length))⟩
  else none

/-! ## The retry wrapper `LLM.protected_send` (`arena/llm.py`)

The provider call `self._send` is modelled as an oracle
`Nat → Option String`: `oracle i = some s` means the `i`-th attempt
(0-based) returns text `s`, `oracle i = none` means it raises.  The
wrapper's observable behaviour is collected in a trace: the returned
text, how many attempts were made, and the sequence of sleep durations
(`time.sleep(2)` calls), in order. -/

/-- The observable behaviour of one `protected_send` call. -/
structure SendTrace where
  result : String
  attempts : Nat
  sleeps : List Nat
deriving DecidableEq, Repr

/-- The `while retries:` loop of `protected_send`: `retries` is
decremented, the attempt is made, and on failure a 2-unit sleep is taken
only when retries remain; when the loop exhausts, the sentinel `"{}"` is
returned. -/
def protectedLoop (oracle : Nat → Option String) : Nat → Nat → List Nat → SendTrace
  | 0, attempt, sleeps => ⟨"\x7b\x7d", attempt, sleeps⟩
  | r + 1, attempt, sleeps =>
    match oracle attempt with
    | some s => ⟨s, attempt + 1, sleeps⟩
    | none => protectedLoop oracle r (attempt + 1) (sleeps ++ if r ≠ 0 then [2] else [])

/-- Method `LLM.protected_send`: the retry loop entered with
`retries = 3`, no attempts made yet and no sleeps taken. -/
def protected_send (oracle : Nat → Option String) : SendTrace :=
  protectedLoop oracle 3 0 []

/-! ## The ELO rating engine (`arena/record.py`)

Ratings are idealised as real numbers (the source computes with floating
point); the ratings dictionary is a partial map `String → Option ℝ`
containing exactly the players written so far. -/

/-- One stored game outcome (`Result` dataclass); the timestamp is an
opaque number, used by the engine only through list order. -/
structure Result where
  red_player : String
  yellow_player : String
  red_won : Bool
  yellow_won : Bool
  at_time : Nat
deriving DecidableEq, Repr

/-- The `EloCalculator` state: `k_factor`, `default_rating`, and the
ratings dictionary. -/
structure EloCalculator where
  k_factor : ℝ
  default_rating : ℝ
  ratings : String → Option ℝ

/-- A fresh `EloCalculator()` with the default arguments `k_factor = 32`
and `default_rating = 1000`, as used by `calculate_elo_ratings`. -/
def eloInit : EloCalculator :=
  { k_factor := 32, default_rating := 1000, ratings := fun _ => none }

/-- Method `EloCalculator.get_player_rating`: the stored rating, or the
default for a new player. -/
def get_player_rating (c : EloCalculator) (p : String) : ℝ :=
  (c.ratings p).getD c.default_rating

/-- Method `EloCalculator.calculate_expected_score`:
`1 / (1 + 10 ^ ((rating_b - rating_a) / 400))`. -/
noncomputable def calculate_expected_score (c : EloCalculator) (rating_a rating_b : ℝ) : ℝ :=
  1 / (1 + (10 : ℝ) ^ ((rating_b - rating_a) / 400))

/-- Method `EloCalculator.update_ratings`: both expected scores are
computed from the two pre-update ratings, both new ratings are computed
from those, and only then is the dictionary written (`player_a` first,
then `player_b`, matching the source's two assignments). -/
noncomputable def update_ratings (c : EloCalculator) (player_a player_b : String)
    (score_a score_b : ℝ) : EloCalculator :=
  let rating_a := get_player_rating c player_a
  let rating_b := get_player_rating c player_b
  let expected_a := calculate_expected_score c rating_a rating_b
  let expected_b := 1 - expected_a
  let new_rating_a := rating_a + c.k_factor * (score_a - expected_a)
  let new_rating_b := rating_b + c.k_factor * (score_b - expected_b)
  { c with ratings := fun p =>
      if p = player_b then some new_rating_b
      else if p = player_a then some new_rating_a
      else c.ratings p }

/-- The body of the `for result in results:` loop of
`calculate_elo_ratings`: skip self-play when requested, convert the
outcome to scores (red win, yellow win, anything else a draw), and
update. -/
noncomputable def elo_step (exclude_self_play : Bool) (c : EloCalculator) (r : Result) :
    EloCalculator :=
  if exclude_self_play = true ∧ r.red_player = r.yellow_player then c
  else
    let scores : ℝ × ℝ :=
      if r.red_won = true ∧ r.yellow_won = false then (1, 0)
      else if r.yellow_won = true ∧ r.red_won = false then (0, 1)
      else (0.5, 0.5)
    update_ratings c r.red_player r.yellow_player scores.1 scores.2

/-- Function `calculate_elo_ratings`: fold the results, in list order,
over a fresh calculator, and return the final ratings dictionary. -/
noncomputable def calculate_elo_ratings (results : List Result)
    (exclude_self_play : Bool := true) : String → Option ℝ :=
  (results.foldl (elo_step exclude_self_play) eloInit).ratings

/-! ## Concrete inputs used by the evaluation theorems -/

/-- A sequence of 42 legal column choices that fills the whole board with
strictly alternating colours and never creates a four-in-a-row at any
intermediate point (checked by the theorems below). -/
def drawSeq : List Nat :=
  [6, 3, 6, 1, 6, 6, 5, 5, 2, 5, 5, 6, 6, 3, 1, 4, 4, 5, 2, 2, 0,
   5, 3, 2, 2, 0, 1, 2, 4, 4, 0, 4, 4, 0, 3, 0, 1, 1, 3, 3, 0, 1]

/-- A grid holding a red four-in-a-row on the bottom row and a yellow
four-in-a-row directly above it — a board (unreachable in play) on which
both colours have runs. -/
def twoRunCells : Cells :=
  [[1, 1, 1, 1, 0, 0, 0],
   [-1, -1, -1, -1, 0, 0, 0],
   [0, 0, 0, 0, 0, 0, 0],
   [0, 0, 0, 0, 0, 0, 0],
   [0, 0, 0, 0, 0, 0, 0],
   [0, 0, 0, 0, 0, 0, 0]]

/-- A grid whose only run is the red four-in-a-row on the bottom row. -/
def redRunCells : Cells :=
  [[1, 1, 1, 1, 0, 0, 0],
   [-1, -1, 0, 0, 0, 0, 0],
   [0, 0, 0, 0, 0, 0, 0],
   [0, 0, 0, 0, 0, 0, 0],
   [0, 0, 0, 0, 0, 0, 0],
   [0, 0, 0, 0, 0, 0, 0]]

/-- Invariant: the grid has exactly 6 rows of 7 cells each. -/
def Shape (cells : Cells) : Prop :=
  cells.length = 6 ∧ ∀ r ∈ cells, r.length = 7

/-- Invariant: every cell at or above a column's height is empty (pieces
are bottom-filled). -/
def Compact (cells : Cells) : Prop :=
  ∀ x < 7, ∀ k < 6, height cells x ≤ k → getCell cells k x = 0

/-- The reachability invariant maintained by legal moves: well-shaped,
bottom-filled grid; the player is a real colour; the draw flag is clear
(the source can never set it, see `notLegalMovesAttr`); and the stored
winner agrees with a fresh scan of the grid. -/
def Inv (b : Board) : Prop :=
  Shape b.cells ∧ Compact b.cells ∧ (b.player = 1 ∨ b.player = -1) ∧
    b.draw = false ∧ b.winner = wins b.cells

instance (cells : Cells) : Decidable (Shape cells) := by
  unfold Shape; infer_instance

instance (cells : Cells) : Decidable (Compact cells) := by
  unfold Compact; infer_instance

instance (b : Board) : Decidable (Inv b) := by
  unfold Inv; infer_instance

/-! ## Helper lemmas: list updates -/

theorem getD_set_self {α} (l : List α) (i : Nat) (v d : α) (h : i < l.length) :
    (l.set i v).getD i d = v := by
  induction l generalizing i with
  | nil => simp at h
  | cons a t ih =>
    cases i with
    | zero => rfl
    | succ n => exact ih n (by simpa using h)

theorem getD_set_ne {α} (l : List α) {i j : Nat} (v : α) (d : α) (h : i ≠ j) :
    (l.set i v).getD j d = l.getD j d := by
  induction l generalizing i j with
  | nil => rfl
  | cons a t ih =>
    cases i with
    | zero =>
      cases j with
      | zero => exact absurd rfl h
      | succ m => rfl
    | succ n =>
      cases j with
      | zero => rfl
      | succ m => exact ih (fun hc => h (by omega))

theorem getD_set_self_or {α} (l : List α) (i : Nat) (v d : α) :
    (l.set i v).getD i d = v ∨ l.set i v = l := by
  induction l generalizing i with
  | nil => right; rfl
  | cons a t ih =>
    cases i with
    | zero => left; rfl
    | succ n =>
      rcases ih n with h | h
      · left; exact h
      · right; show a :: t.set n v = a :: t; rw [h]

theorem getCell_setCell_ne (cells : Cells) {y x y' x' : Nat} (v : Int)
    (h : (y', x') ≠ (y, x)) :
    getCell (setCell cells y x v) y' x' = getCell cells y' x' := by
  unfold getCell setCell
  by_cases hy : y = y'
  · subst hy
    have hx : x ≠ x' := fun hc => h (by simp [hc])
    rcases getD_set_self_or cells y ((cells.getD y []).set x v) [] with h1 | h1
    · rw [h1, getD_set_ne _ _ _ hx]
    · rw [h1]
  · rw [getD_set_ne _ _ _ hy]

theorem getCell_setCell_self (cells : Cells) {y x : Nat} (v : Int)
    (hy : y < cells.length) (hx : x < (cells.getD y []).length) :
    getCell (setCell cells y x v) y x = v := by
  unfold getCell setCell
  rw [getD_set_self _ _ _ _ (by simpa using hy), getD_set_self _ _ _ _ hx]

/-! ## Helper lemmas: column heights -/

theorem heightLoop_le (cells : Cells) (x : Nat) :
    ∀ fuel h, heightLoop cells x fuel h ≤ h + fuel := by
  intro fuel
  induction fuel with
  | zero => intro h; simp [heightLoop]
  | succ n ih =>
    intro h
    show (if getCell cells h x ≠ 0 then heightLoop cells x n (h + 1) else h) ≤ h + (n + 1)
    split
    · have := ih (h + 1); omega
    · omega

theorem heightLoop_ge (cells : Cells) (x : Nat) :
    ∀ fuel h, h ≤ heightLoop cells x fuel h := by
  intro fuel
  induction fuel with
  | zero => intro h; simp [heightLoop]
  | succ n ih =>
    intro h
    show h ≤ (if getCell cells h x ≠ 0 then heightLoop cells x n (h + 1) else h)
    split
    · have := ih (h + 1); omega
    · omega

theorem heightLoop_stop (cells : Cells) (x : Nat) :
    ∀ fuel h, heightLoop cells x fuel h < h + fuel →
      getCell cells (heightLoop cells x fuel h) x = 0 := by
  intro fuel
  induction fuel with
  | zero => intro h hlt; simp [heightLoop] at hlt
  | succ n ih =>
    intro h
    by_cases hc : getCell cells h x ≠ 0
    · have he : heightLoop cells x (n + 1) h = heightLoop cells x n (h + 1) := by
        simp [heightLoop, hc]
      rw [he]
      intro hlt
      exact ih (h + 1) (by omega)
    · have he : heightLoop cells x (n + 1) h = h := by
        simp [heightLoop, hc]
      rw [he]
      intro _
      exact not_not.mp hc

theorem heightLoop_below (cells : Cells) (x : Nat) :
    ∀ fuel h k, h ≤ k → k < heightLoop cells x fuel h → getCell cells k x ≠ 0 := by
  intro fuel
  induction fuel with
  | zero => intro h k hk hlt; simp [heightLoop] at hlt; omega
  | succ n ih =>
    intro h k hk
    show k < (if getCell cells h x ≠ 0 then heightLoop cells x n (h + 1) else h) →
      getCell cells k x ≠ 0
    split
    · intro hlt
      rcases Nat.eq_or_lt_of_le hk with heq | hgt
      · subst heq; assumption
      · exact ih (h + 1) k hgt hlt
    · intro hlt; omega

theorem heightLoop_eq_of (cells : Cells) (x : Nat) :
    ∀ fuel h n, h ≤ n → n ≤ h + fuel →
      (∀ k, h ≤ k → k < n → getCell cells k x ≠ 0) →
      (n < h + fuel → getCell cells n x = 0) →
      heightLoop cells x fuel h = n := by
  intro fuel
  induction fuel with
  | zero => intro h n h1 h2 _ _; simp [heightLoop]; omega
  | succ m ih =>
    intro h n h1 h2 hocc hzero
    show (if getCell cells h x ≠ 0 then heightLoop cells x m (h + 1) else h) = n
    rcases Nat.eq_or_lt_of_le h1 with heq | hgt
    · subst heq
      have hz : getCell cells h x = 0 := hzero (by omega)
      simp [hz]
    · have ho : getCell cells h x ≠ 0 := hocc h (le_refl h) hgt
      simp only [ho, if_pos, ne_eq, not_true_eq_false, not_false_eq_true, if_true]
      exact ih (h + 1) n hgt (by omega) (fun k hk1 hk2 => hocc k (by omega) hk2)
        (fun hlt => hzero (by omega))

theorem height_le (cells : Cells) (x : Nat) : height cells x ≤ 6 :=
  heightLoop_le cells x 6 0

theorem height_stop (cells : Cells) (x : Nat) (h : height cells x < 6) :
    getCell cells (height cells x) x = 0 :=
  heightLoop_stop cells x 6 0 h

theorem height_below (cells : Cells) (x : Nat) {k : Nat} (h : k < height cells x) :
    getCell cells k x ≠ 0 :=
  heightLoop_below cells x 6 0 k (Nat.zero_le k) h

theorem height_eq_of (cells : Cells) (x : Nat) {n : Nat} (h2 : n ≤ 6)
    (hocc : ∀ k, k < n → getCell cells k x ≠ 0)
    (hzero : n < 6 → getCell cells n x = 0) :
    height cells x = n :=
  heightLoop_eq_of cells x 6 0 n (Nat.zero_le n) h2 (fun k _ hk2 => hocc k hk2) hzero

theorem heightLoop_congr {c1 c2 : Cells} {x : Nat}
    (hcg : ∀ k, getCell c1 k x = getCell c2 k x) :
    ∀ fuel h, heightLoop c1 x fuel h = heightLoop c2 x fuel h := by
  intro fuel
  induction fuel with
  | zero => intro h; rfl
  | succ n ih =>
    intro h
    show (if getCell c1 h x ≠ 0 then heightLoop c1 x n (h + 1) else h) =
      (if getCell c2 h x ≠ 0 then heightLoop c2 x n (h + 1) else h)
    rw [hcg h, ih (h + 1)]

theorem height_setCell_ne (cells : Cells) {y x x' : Nat} (v : Int) (h : x' ≠ x) :
    height (setCell cells y x v) x' = height cells x' :=
  heightLoop_congr (fun k => getCell_setCell_ne cells v (by simp [h])) 6 0

/-! ## Helper lemmas: shape, compactness and occupancy -/

theorem getD_mem {α} (l : List α) (n : Nat) (d : α) (h : n < l.length) :
    l.getD n d ∈ l := by
  rw [List.getD_eq_getElem l d h]
  exact List.getElem_mem h

theorem shape_setCell {cells : Cells} (hs : Shape cells) (y x : Nat) (v : Int) :
    Shape (setCell cells y x v) := by
  obtain ⟨hlen, hrow⟩ := hs
  by_cases hy : y < cells.length
  · refine ⟨by simpa [setCell] using hlen, ?_⟩
    intro r hr
    unfold setCell at hr
    rcases List.mem_or_eq_of_mem_set hr with h | h
    · exact hrow r h
    · subst h
      rw [List.length_set]
      exact hrow _ (getD_mem cells y [] hy)
  · unfold setCell
    rw [List.set_eq_of_length_le (by omega)]
    exact ⟨hlen, hrow⟩

theorem countP_set_incr (l : List Int) (v : Int) :
    ∀ i, i < l.length → l.getD i 0 = 0 → v ≠ 0 →
      (l.set i v).countP (fun a => decide (a ≠ 0)) =
        l.countP (fun a => decide (a ≠ 0)) + 1 := by
  induction l with
  | nil => intro i hi; simp at hi
  | cons a t ih =>
    intro i hi h0 hv
    cases i with
    | zero =>
      have ha : a = 0 := h0
      subst ha
      show (v :: t).countP _ = (0 :: t).countP _ + 1
      rw [List.countP_cons, List.countP_cons]
      simp [hv]
    | succ n =>
      show (a :: t.set n v).countP _ = (a :: t).countP _ + 1
      rw [List.countP_cons, List.countP_cons]
      have := ih n (by simpa using hi) h0 hv
      omega

theorem occupied_set_row (cells : Cells) :
    ∀ y, y < cells.length →
      ∀ r : List Int, r.countP (fun a => decide (a ≠ 0)) =
        (cells.getD y []).countP (fun a => decide (a ≠ 0)) + 1 →
      occupied (cells.set y r) = occupied cells + 1 := by
  induction cells with
  | nil => intro y hy; simp at hy
  | cons c t ih =>
    intro y hy r hr
    cases y with
    | zero =>
      show occupied (r :: t) = occupied (c :: t) + 1
      unfold occupied
      simp only [List.map_cons, List.sum_cons]
      have hc : ((c :: t).getD 0 []) = c := rfl
      rw [hc] at hr
      omega
    | succ n =>
      show occupied (c :: t.set n r) = occupied (c :: t) + 1
      unfold occupied
      simp only [List.map_cons, List.sum_cons]
      have hrec := ih n (by simpa using hy) r hr
      unfold occupied at hrec
      omega

theorem row_length {cells : Cells} (hs : Shape cells) {y : Nat} (hy : y < 6) :
    (cells.getD y []).length = 7 :=
  hs.2 _ (getD_mem cells y [] (by rw [hs.1]; omega))

theorem occupied_setCell {cells : Cells} (hs : Shape cells) {y x : Nat} {v : Int}
    (hy : y < 6) (hx : x < 7) (h0 : getCell cells y x = 0) (hv : v ≠ 0) :
    occupied (setCell cells y x v) = occupied cells + 1 := by
  unfold setCell
  refine occupied_set_row cells y (by rw [hs.1]; omega) _ ?_
  exact countP_set_incr _ v x (by rw [row_length hs hy]; omega) h0 hv

theorem height_setCell_succ {cells : Cells} {x : Nat} {v : Int}
    (hs : Shape cells) (hc : Compact cells) (hx : x < 7)
    (hy : height cells x < 6) (hv : v ≠ 0) :
    height (setCell cells (height cells x) x v) x = height cells x + 1 := by
  set y := height cells x with hydef
  refine height_eq_of _ x (by omega) ?_ ?_
  · intro k hk
    rcases Nat.lt_or_ge k y with hlt | hge
    · rw [getCell_setCell_ne cells v (by simp; omega)]
      exact height_below cells x hlt
    · have hk' : k = y := by omega
      subst hk'
      rw [getCell_setCell_self cells v (by rw [hs.1]; omega) (by rw [row_length hs hy]; omega)]
      exact hv
  · intro hlt
    rw [getCell_setCell_ne cells v (by simp)]
    exact hc x hx (y + 1) hlt (by omega)

theorem compact_setCell {cells : Cells} {x : Nat} {v : Int}
    (hs : Shape cells) (hc : Compact cells) (hx : x < 7)
    (hy : height cells x < 6) (hv : v ≠ 0) :
    Compact (setCell cells (height cells x) x v) := by
  set y := height cells x with hydef
  intro x' hx' k hk hhk
  by_cases hxx : x' = x
  · subst hxx
    rw [height_setCell_succ hs hc hx' hy hv] at hhk
    rw [getCell_setCell_ne cells v (by simp; omega)]
    exact hc x' hx' k hk (by omega)
  · rw [height_setCell_ne cells v hxx] at hhk
    rw [getCell_setCell_ne cells v (by simp [hxx])]
    exact hc x' hx' k hk hhk

/-! ## Helper lemmas: the win scan against the run predicate -/

theorem mem_intRange {n : Nat} {a : Int} : a ∈ intRange n ↔ 0 ≤ a ∧ a < n := by
  unfold intRange
  simp only [List.mem_map, List.mem_range]
  constructor
  · rintro ⟨m, hm, rfl⟩
    omega
  · rintro ⟨h0, hn⟩
    exact ⟨a.toNat, by omega, by omega⟩

theorem mem_positions {x y : Int} : (x, y) ∈ positions ↔ inBox x y := by
  unfold positions inBox
  simp only [List.mem_flatMap, List.mem_range, List.mem_map, Prod.mk.injEq]
  constructor
  · rintro ⟨b, hb, a, ha, rfl, rfl⟩
    refine ⟨by omega, by omega, by omega, by omega⟩
  · rintro ⟨h1, h2, h3, h4⟩
    exact ⟨y.toNat, by omega, x.toNat, by omega, by omega, by omega⟩

theorem winning_line_eq_zero_or (cells : Cells) (x y dx dy : Int) :
    winning_line cells x y dx dy = 0 ∨
      winning_line cells x y dx dy = getCellI cells x y := by
  simp only [winning_line]
  split
  · exact Or.inr rfl
  · exact Or.inl rfl

theorem winning_line_of_runAt {cells : Cells} {x y dx dy c : Int}
    (h : runAt cells x y dx dy c) : winning_line cells x y dx dy = c := by
  have h0 := h 0 (by omega)
  have h1 := h 1 (by omega)
  have h2 := h 2 (by omega)
  have h3 := h 3 (by omega)
  norm_num at h0 h1 h2 h3
  simp only [winning_line]
  rw [h0.2]
  rw [if_pos ⟨h1, h2, h3⟩]

theorem runAt_of_winning_line {cells : Cells} {x y dx dy : Int} (hbox : inBox x y)
    (hne : winning_line cells x y dx dy ≠ 0) :
    runAt cells x y dx dy (winning_line cells x y dx dy) := by
  simp only [winning_line] at hne ⊢
  by_cases hcond :
      (inBox (x + dx) (y + dy) ∧ getCellI cells (x + dx) (y + dy) = getCellI cells x y) ∧
      (inBox (x + dx * 2) (y + dy * 2) ∧
        getCellI cells (x + dx * 2) (y + dy * 2) = getCellI cells x y) ∧
      (inBox (x + dx * 3) (y + dy * 3) ∧
        getCellI cells (x + dx * 3) (y + dy * 3) = getCellI cells x y)
  · rw [if_pos hcond]
    intro i hi
    interval_cases i
    · simp only [Nat.cast_zero, mul_zero, add_zero, and_true, eq_self_iff_true]
      exact hbox
    · simp only [Nat.cast_one, mul_one]
      exact hcond.1
    · simp only [Nat.cast_ofNat]
      exact hcond.2.1
    · simp only [Nat.cast_ofNat]
      exact hcond.2.2
  · rw [if_neg hcond] at hne
    exact absurd rfl hne

theorem winning_cell_branches (cells : Cells) (x y : Int) :
    winning_cell cells x y = winning_line cells x y 0 1 ∨
    winning_cell cells x y = winning_line cells x y 1 1 ∨
    winning_cell cells x y = winning_line cells x y 1 0 ∨
    winning_cell cells x y = winning_line cells x y 1 (-1) ∨
    winning_cell cells x y = 0 := by
  simp only [winning_cell]
  split_ifs <;> tauto

theorem winning_cell_of_runAt {cells : Cells} {x y dx dy c : Int}
    (hd : (dx, dy) ∈ dirs) (hc : c ≠ 0) (h : runAt cells x y dx dy c) :
    winning_cell cells x y = c := by
  have hcol : getCellI cells x y = c := by
    have h0 := h 0 (by omega)
    norm_num at h0
    exact h0.2
  have hline : winning_line cells x y dx dy = c := winning_line_of_runAt h
  have hall : ∀ dx' dy' : Int, winning_line cells x y dx' dy' = 0 ∨
      winning_line cells x y dx' dy' = c := by
    intro dx' dy'
    rcases winning_line_eq_zero_or cells x y dx' dy' with h' | h'
    · exact Or.inl h'
    · exact Or.inr (h'.trans hcol)
  simp only [dirs, List.mem_cons, List.not_mem_nil, or_false, Prod.mk.injEq] at hd
  simp only [winning_cell]
  split_ifs with h1 h2 h3 h4
  · rcases hall 0 1 with h' | h'
    · exact absurd h' h1
    · exact h'
  · rcases hall 1 1 with h' | h'
    · exact absurd h' h2
    · exact h'
  · rcases hall 1 0 with h' | h'
    · exact absurd h' h3
    · exact h'
  · rcases hall 1 (-1) with h' | h'
    · exact absurd h' h4
    · exact h'
  · exfalso
    rcases hd with ⟨rfl, rfl⟩ | ⟨rfl, rfl⟩ | ⟨rfl, rfl⟩ | ⟨rfl, rfl⟩
    · exact hc (hline.symm.trans (not_not.mp h1))
    · exact hc (hline.symm.trans (not_not.mp h2))
    · exact hc (hline.symm.trans (not_not.mp h3))
    · exact hc (hline.symm.trans (not_not.mp h4))

theorem hasRun_of_winning_cell {cells : Cells} {x y : Int} (hbox : inBox x y)
    (hne : winning_cell cells x y ≠ 0) : hasRun cells (winning_cell cells x y) := by
  have hbox' : 0 ≤ x ∧ x ≤ 6 ∧ 0 ≤ y ∧ y ≤ 5 := hbox
  have hx : x ∈ intRange 7 := mem_intRange.mpr ⟨hbox'.1, by omega⟩
  have hy : y ∈ intRange 6 := mem_intRange.mpr ⟨hbox'.2.2.1, by omega⟩
  rcases winning_cell_branches cells x y with h | h | h | h | h
  · exact ⟨(0, 1), by simp [dirs], x, hx, y, hy, h ▸ runAt_of_winning_line hbox (h ▸ hne)⟩
  · exact ⟨(1, 1), by simp [dirs], x, hx, y, hy, h ▸ runAt_of_winning_line hbox (h ▸ hne)⟩
  · exact ⟨(1, 0), by simp [dirs], x, hx, y, hy, h ▸ runAt_of_winning_line hbox (h ▸ hne)⟩
  · exact ⟨(1, -1), by simp [dirs], x, hx, y, hy, h ▸ runAt_of_winning_line hbox (h ▸ hne)⟩
  · exact absurd h hne

theorem hasRun_wins {cells : Cells} (hne : wins cells ≠ 0) : hasRun cells (wins cells) := by
  unfold wins at hne ⊢
  cases hfind : positions.find? (fun p => winning_cell cells p.1 p.2 != 0) with
  | none => rw [hfind] at hne; exact absurd rfl hne
  | some p =>
    have hp : winning_cell cells p.1 p.2 ≠ 0 := by
      have := List.find?_some hfind
      simpa using this
    have hmem : p ∈ positions := List.mem_of_find?_eq_some hfind
    have hbox : inBox p.1 p.2 := mem_positions.mp (by rw [Prod.mk.eta]; exact hmem)
    exact hasRun_of_winning_cell hbox hp

theorem wins_eq_zero_iff (cells : Cells) :
    wins cells = 0 ↔ ∀ c, c ≠ 0 → ¬ hasRun cells c := by
  constructor
  · intro h0 c hc hrun
    obtain ⟨d, hd, x, hx, y, hy, hr⟩ := hrun
    have hbox : inBox x y := by
      have := hr 0 (by omega)
      norm_num at this
      exact this.1
    have hcell : winning_cell cells x y = c := winning_cell_of_runAt hd hc hr
    have hmem : (x, y) ∈ positions := mem_positions.mpr hbox
    have : positions.find? (fun p => winning_cell cells p.1 p.2 != 0) ≠ none := by
      intro hnone
      have := List.find?_eq_none.mp hnone (x, y) hmem
      simp [hcell] at this
      exact hc this
    unfold wins at h0
    cases hfind : positions.find? (fun p => winning_cell cells p.1 p.2 != 0) with
    | none => exact this hfind
    | some p =>
      have hp : winning_cell cells p.1 p.2 ≠ 0 := by simpa using List.find?_some hfind
      rw [hfind] at h0
      exact hp h0
  · intro hno
    by_contra hne
    have := hasRun_wins hne
    exact hno (wins cells) hne this

/-! ## Helper lemmas: runs survive placements on empty cells -/

theorem runAt_setCell {cells : Cells} {x y dx dy c : Int} {yw xw : Nat} {v : Int}
    (h : runAt cells x y dx dy c) (hc : c ≠ 0) (h0 : getCell cells yw xw = 0) :
    runAt (setCell cells yw xw v) x y dx dy c := by
  intro i hi
  obtain ⟨hbox, hval⟩ := h i hi
  refine ⟨hbox, ?_⟩
  unfold getCellI at hval ⊢
  by_cases heq : ((y + dy * i).toNat, (x + dx * i).toNat) = (yw, xw)
  · exfalso
    have h1 : yw = (y + dy * i).toNat := (Prod.mk.injEq _ _ _ _ ▸ heq).1.symm
    have h2 : xw = (x + dx * i).toNat := (Prod.mk.injEq _ _ _ _ ▸ heq).2.symm
    rw [h1, h2] at h0
    exact hc (hval.symm.trans h0 |>.symm ▸ rfl)
  · rw [getCell_setCell_ne cells v heq]
    exact hval

theorem hasRun_setCell {cells : Cells} {c : Int} {yw xw : Nat} {v : Int}
    (h : hasRun cells c) (hc : c ≠ 0) (h0 : getCell cells yw xw = 0) :
    hasRun (setCell cells yw xw v) c := by
  obtain ⟨d, hd, x, hx, y, hy, hr⟩ := h
  exact ⟨d, hd, x, hx, y, hy, runAt_setCell hr hc h0⟩

theorem wins_setCell_ne {cells : Cells} {yw xw : Nat} {v : Int}
    (hprev : wins cells ≠ 0) (h0 : getCell cells yw xw = 0) :
    wins (setCell cells yw xw v) ≠ 0 := by
  have hrun := hasRun_setCell (v := v) (hasRun_wins hprev) hprev h0
  intro hz
  exact (wins_eq_zero_iff _).mp hz _ hprev hrun

/-! ## Helper lemmas: the legal-move step preserves the invariant -/

theorem move_step {b b' : Board} {x : Nat} (hInv : Inv b) (hm : move? b x = some b') :
    Inv b' ∧ occupied b'.cells = occupied b.cells + 1 ∧ b'.forfeit = b.forfeit ∧
      (b'.player = -1 * b.player ↔ is_active b' = true) ∧
      (b'.player = b.player ↔ is_active b' = false) := by
  obtain ⟨hS, hC, hP, hD, hW⟩ := hInv
  unfold move? at hm
  by_cases hcond : x < 7 ∧ height b.cells x < 6
  case neg =>
    rw [if_neg hcond] at hm
    exact absurd hm (by simp)
  rw [if_pos hcond] at hm
  obtain ⟨hx7, hy6⟩ := hcond
  have hb' : b' = moveCore b x := (Option.some.inj hm).symm
  have hv : b.player ≠ 0 := by rcases hP with h | h <;> simp [h]
  have h0 : getCell b.cells (height b.cells x) x = 0 := height_stop _ _ hy6
  have hS' : Shape (setCell b.cells (height b.cells x) x b.player) :=
    shape_setCell hS _ _ _
  have hC' : Compact (setCell b.cells (height b.cells x) x b.player) :=
    compact_setCell hS hC hx7 hy6 hv
  have hOcc : occupied (setCell b.cells (height b.cells x) x b.player) =
      occupied b.cells + 1 := occupied_setCell hS hy6 hx7 h0 hv
  by_cases hw : wins (setCell b.cells (height b.cells x) x b.player) ≠ 0
  · have hcells : b'.cells = setCell b.cells (height b.cells x) x b.player := by
      rw [hb']; simp [moveCore, hw]
    have hplayer : b'.player = b.player := by
      rw [hb']; simp [moveCore, hw]
    have hwinner : b'.winner = wins (setCell b.cells (height b.cells x) x b.player) := by
      rw [hb']; simp [moveCore, hw]
    have hdraw : b'.draw = false := by
      rw [hb']; simp [moveCore, hw, hD]
    have hforf : b'.forfeit = b.forfeit := by
      rw [hb']; simp [moveCore, hw]
    have hact : is_active b' = false := by
      unfold is_active
      rw [hwinner, hdraw]
      simp [hw]
    refine ⟨⟨?_, ?_, ?_, hdraw, ?_⟩, ?_, hforf, ?_, ?_⟩
    · rw [hcells]; exact hS'
    · rw [hcells]; exact hC'
    · rw [hplayer]; exact hP
    · rw [hwinner, hcells]
    · rw [hcells]; exact hOcc
    · rw [hact]
      simp only [Bool.false_eq_true, iff_false]
      rw [hplayer]
      omega
    · rw [hact, hplayer]
      simp
  · have hwz : wins (setCell b.cells (height b.cells x) x b.player) = 0 := not_not.mp hw
    have hprev : wins b.cells = 0 := by
      by_contra hpw
      exact (wins_setCell_ne (v := b.player) hpw h0) hwz
    have hwin0 : b.winner = 0 := hW.trans hprev
    have hcells : b'.cells = setCell b.cells (height b.cells x) x b.player := by
      rw [hb']; simp [moveCore, hwz, notLegalMovesAttr]
    have hplayer : b'.player = -1 * b.player := by
      rw [hb']; simp [moveCore, hwz, notLegalMovesAttr]
    have hwinner : b'.winner = b.winner := by
      rw [hb']; simp [moveCore, hwz, notLegalMovesAttr]
    have hdraw : b'.draw = false := by
      rw [hb']; simp [moveCore, hwz, notLegalMovesAttr, hD]
    have hforf : b'.forfeit = b.forfeit := by
      rw [hb']; simp [moveCore, hwz, notLegalMovesAttr]
    have hact : is_active b' = true := by
      unfold is_active
      rw [hwinner, hwin0, hdraw]
      simp
    refine ⟨⟨?_, ?_, ?_, hdraw, ?_⟩, ?_, hforf, ?_, ?_⟩
    · rw [hcells]; exact hS'
    · rw [hcells]; exact hC'
    · rw [hplayer]; rcases hP with h | h <;> simp [h]
    · rw [hwinner, hwin0, hcells, hwz]
    · rw [hcells]; exact hOcc
    · rw [hact, hplayer]
      simp
    · rw [hact, hplayer]
      simp only [Bool.true_eq_false, iff_false]
      omega

theorem applyMoves_invariant :
    ∀ (l : List Nat) (b b' : Board), Inv b → applyMoves b l = some b' →
      Inv b' ∧ occupied b'.cells = occupied b.cells + l.length := by
  intro l
  induction l with
  | nil =>
    intro b b' h hm
    have hb : b = b' := Option.some.inj hm
    subst hb
    exact ⟨h, by simp⟩
  | cons x xs ih =>
    intro b b' h hm
    unfold applyMoves at hm
    cases hmv : move? b x with
    | none => rw [hmv] at hm; exact absurd hm (by simp)
    | some b1 =>
      rw [hmv] at hm
      have hm' : applyMoves b1 xs = some b' := hm
      obtain ⟨hInv1, hOcc1, _, _, _⟩ := move_step h hmv
      obtain ⟨hInv', hOcc'⟩ := ih b1 b' hInv1 hm'
      refine ⟨hInv', ?_⟩
      rw [hOcc', hOcc1]
      simp
      omega

theorem inv_init : Inv boardInit := by decide

/-! ## Helper lemmas: Python `str.find` -/

theorem findFrom_succ (s sub : List Char) (n i : Nat) :
    findFrom s sub (n + 1) i =
      if i + sub.length ≤ s.length then
        if (s.drop i).take sub.length = sub then (i : Int) else findFrom s sub n (i + 1)
      else -1 := rfl

theorem findFrom_found (s sub : List Char) :
    ∀ fuel i, s.length + 1 ≤ i + fuel →
      (∃ j, i ≤ j ∧ isSubAt s sub j) →
      ∃ j : Nat, findFrom s sub fuel i = (j : Int) ∧ i ≤ j ∧ isSubAt s sub j := by
  intro fuel
  induction fuel with
  | zero =>
    rintro i hfuel ⟨j, hij, hlen, _⟩
    exfalso
    omega
  | succ n ih =>
    rintro i hfuel ⟨j, hij, hsub⟩
    rw [findFrom_succ]
    by_cases hlen : i + sub.length ≤ s.length
    · by_cases hmatch : (s.drop i).take sub.length = sub
      · rw [if_pos hlen, if_pos hmatch]
        exact ⟨i, rfl, le_refl i, hlen, hmatch⟩
      · rw [if_pos hlen, if_neg hmatch]
        have hne : j ≠ i := fun hji => hmatch (hji ▸ hsub.2)
        obtain ⟨j', e1, e2, e3⟩ := ih (i + 1) (by omega) ⟨j, by omega, hsub⟩
        exact ⟨j', e1, by omega, e3⟩
    · exfalso
      have := hsub.1
      omega

theorem findFrom_none (s sub : List Char) :
    ∀ fuel i, (∀ j, i ≤ j → ¬ isSubAt s sub j) → findFrom s sub fuel i = -1 := by
  intro fuel
  induction fuel with
  | zero => intro i _; rfl
  | succ n ih =>
    intro i hno
    rw [findFrom_succ]
    by_cases hlen : i + sub.length ≤ s.length
    · by_cases hmatch : (s.drop i).take sub.length = sub
      · exact absurd ⟨hlen, hmatch⟩ (hno i (le_refl i))
      · rw [if_pos hlen, if_neg hmatch]
        exact ih (i + 1) (fun j hj => hno j (by omega))
    · rw [if_neg hlen]

theorem pyFind_found {s sub : List Char} (h : isSubstring s sub) :
    ∃ j : Nat, pyFind s sub = (j : Int) ∧ isSubAt s sub j := by
  obtain ⟨i, _, hsub⟩ := h
  obtain ⟨j, hj1, _, hj3⟩ :=
    findFrom_found s sub (s.length + 1) 0 (by omega) ⟨i, Nat.zero_le i, hsub⟩
  exact ⟨j, hj1, hj3⟩

theorem pyFind_none {s sub : List Char} (h : ¬ isSubstring s sub) : pyFind s sub = -1 := by
  apply findFrom_none
  intro j _ hsub
  apply h
  refine ⟨j, ?_, hsub⟩
  have := hsub.1
  simp only [List.mem_range]
  omega

theorem getD_eq_headD_drop {α} (s : List α) : ∀ (j : Nat) (d : α),
    s.getD j d = (s.drop j).headD d := by
  induction s with
  | nil => intro j d; simp
  | cons a t ih =>
    intro j d
    cases j with
    | zero => rfl
    | succ n => exact ih n d

theorem isSubAt_head {s sub : List Char} {j : Nat} (hne : sub ≠ [])
    (h : isSubAt s sub j) : s.getD j ' ' = sub.headD ' ' := by
  obtain ⟨hlen, hmatch⟩ := h
  cases sub with
  | nil => exact absurd rfl hne
  | cons a t =>
    rw [getD_eq_headD_drop]
    cases hd : s.drop j with
    | nil => rw [hd] at hmatch; simp at hmatch
    | cons b u =>
      rw [hd] at hmatch
      simp only [List.length_cons, List.take_succ_cons, List.cons.injEq] at hmatch
      rw [hmatch.1]
      rfl

/-! ## Helper lemmas: `process_move` branch reductions -/

theorem process_move_unparsed {parse : List Char → Option ParsedReply} {reply : List Char}
    (b : Board) (hp : parse (rewriteReply reply) = none) :
    process_move parse reply b = forfeitBoard b := by
  show (match parse (rewriteReply reply) with
    | none => forfeitBoard b
    | some r =>
      let mv : List Char := resolveMove r
      let mvU := mv.map Char.toUpper
      let col : Int := pyFind colsChars mvU
      if 0 ≤ col ∧ col ≤ 6 then
        if height b.cells col.toNat = 6 then forfeitBoard b
        else moveCore b col.toNat
      else forfeitBoard b) = forfeitBoard b
  rw [hp]

theorem process_move_parsed {parse : List Char → Option ParsedReply} {reply : List Char}
    {r : ParsedReply} (b : Board) (hp : parse (rewriteReply reply) = some r) :
    process_move parse reply b =
      (if 0 ≤ pyFind colsChars ((resolveMove r).map Char.toUpper) ∧
          pyFind colsChars ((resolveMove r).map Char.toUpper) ≤ 6 then
        if height b.cells (pyFind colsChars ((resolveMove r).map Char.toUpper)).toNat = 6
        then forfeitBoard b
        else moveCore b (pyFind colsChars ((resolveMove r).map Char.toUpper)).toNat
      else forfeitBoard b) := by
  show (match parse (rewriteReply reply) with
    | none => forfeitBoard b
    | some r =>
      let mv : List Char := resolveMove r
      let mvU := mv.map Char.toUpper
      let col : Int := pyFind colsChars mvU
      if 0 ≤ col ∧ col ≤ 6 then
        if height b.cells col.toNat = 6 then forfeitBoard b
        else moveCore b col.toNat
      else forfeitBoard b) = _
  rw [hp]

theorem missing_not_found : pyFind colsChars (missingStr.map Char.toUpper) = -1 := by
  decide

theorem process_move_fail_eq {parse : List Char → Option ParsedReply} {reply : List Char}
    {b : Board}
    (hfail : parse (rewriteReply reply) = none ∨
      ∃ r, parse (rewriteReply reply) = some r ∧
        (r.move_column = none ∨ r.move_column = some [] ∨
         (∃ s, r.move_column = some s ∧ s ≠ [] ∧
            pyFind colsChars (s.map Char.toUpper) = -1) ∨
         (∃ (s : List Char) (j : Nat), r.move_column = some s ∧ s ≠ [] ∧
            pyFind colsChars (s.map Char.toUpper) = (j : Int) ∧ j ≤ 6 ∧
            height b.cells j = 6))) :
    process_move parse reply b = forfeitBoard b := by
  rcases hfail with hp | ⟨r, hp, hcase⟩
  · exact process_move_unparsed b hp
  · rw [process_move_parsed b hp]
    rcases hcase with hmc | hmc | ⟨s, hmc, hne, hfind⟩ | ⟨s, j, hmc, hne, hfind, hj6, hfull⟩
    · rw [show resolveMove r = missingStr from by rw [resolveMove, hmc]]
      rw [missing_not_found]
      rw [if_neg (by norm_num)]
    · rw [show resolveMove r = missingStr from by rw [resolveMove, hmc]]
      rw [missing_not_found]
      rw [if_neg (by norm_num)]
    · have hres : resolveMove r = s := by
        cases s with
        | nil => exact absurd rfl hne
        | cons a t => rw [resolveMove, hmc]
      rw [hres, hfind]
      rw [if_neg (by norm_num)]
    · have hres : resolveMove r = s := by
        cases s with
        | nil => exact absurd rfl hne
        | cons a t => rw [resolveMove, hmc]
      rw [hres, hfind]
      rw [if_pos ⟨by exact_mod_cast Nat.zero_le j, by exact_mod_cast hj6⟩]
      rw [if_pos (by rw [Int.toNat_natCast]; exact hfull)]

theorem moveCore_forfeit (b : Board) (x : Nat) : (moveCore b x).forfeit = b.forfeit := by
  simp only [moveCore]
  split_ifs <;> rfl

theorem process_move_forfeit_or_move (parse : List Char → Option ParsedReply)
    (reply : List Char) (b : Board) :
    process_move parse reply b = forfeitBoard b ∨
      ∃ k : Nat, process_move parse reply b = moveCore b k := by
  cases hp : parse (rewriteReply reply) with
  | none => exact Or.inl (process_move_unparsed b hp)
  | some r =>
    rw [process_move_parsed b hp]
    split_ifs with h1 h2
    · exact Or.inl rfl
    · exact Or.inr ⟨_, rfl⟩
    · exact Or.inl rfl

/-! ## Helper lemmas: the ELO engine -/

theorem expected_score_equal (c : EloCalculator) (r : ℝ) :
    calculate_expected_score c r r = 1 / 2 := by
  unfold calculate_expected_score
  rw [sub_self, zero_div, Real.rpow_zero]
  norm_num

theorem elo_step_self {c : EloCalculator} {r : Result}
    (h : r.red_player = r.yellow_player) : elo_step true c r = c := by
  unfold elo_step
  rw [if_pos ⟨rfl, h⟩]

/-! ## The claims -/

set_option maxRecDepth 100000

/-- Claim C1.  The claim says that the move filling the last empty cell of
a board with no four-in-a-row sets `draw` to `true`, leaves `winner` at
`EMPTY`, and makes the board terminal.  The code cannot do this: its draw
test `elif not self.legal_moves:` checks the truthiness of the bound
method instead of calling it (see `notLegalMovesAttr`), so the draw branch
is unreachable.  This theorem evaluates the 42 legal moves of `drawSeq`,
which fill the whole board without ever creating a four-in-a-row, and
shows that the resulting board has no legal moves and no winner, yet
`draw` is still `false` and the board still reports active. -/
theorem c1_full_board_never_sets_draw :
    (applyMoves boardInit drawSeq).map
      (fun b => (legal_moves b, b.winner, b.draw, is_active b, occupied b.cells)) =
    some ([], 0, false, true, 42) := by
  decide

/-- Claim C6.  `LLM.protected_send` makes at most 3 attempts; every sleep
it takes lasts 2 units; and when all three attempts fail it returns the
sentinel `"{}"` after exactly 3 attempts with exactly two 2-unit sleeps
between consecutive failed attempts (none after the last). -/
theorem c6_protected_send_retries (oracle : Nat → Option String) :
    (protected_send oracle).attempts ≤ 3 ∧
    (protected_send oracle).sleeps =
      List.replicate (protected_send oracle).sleeps.length 2 ∧
    (oracle 0 = none → oracle 1 = none → oracle 2 = none →
      protected_send oracle = ⟨"\x7b\x7d", 3, [2, 2]⟩) := by
  refine ⟨?_, ?_, ?_⟩
  · cases h0 : oracle 0 <;> cases h1 : oracle 1 <;> cases h2 : oracle 2 <;>
      simp [protected_send, protectedLoop, h0, h1, h2]
  · cases h0 : oracle 0 <;> cases h1 : oracle 1 <;> cases h2 : oracle 2 <;>
      simp [protected_send, protectedLoop, h0, h1, h2]
  · intro h0 h1 h2
    simp [protected_send, protectedLoop, h0, h1, h2]

/-- Witness for C6: the all-failures oracle. -/
theorem c6_protected_send_retries_witness :
    (fun _ : Nat => (none : Option String)) 0 = none ∧
    protected_send (fun _ : Nat => (none : Option String)) = ⟨"\x7b\x7d", 3, [2, 2]⟩ :=
  ⟨rfl, (c6_protected_send_retries (fun _ => none)).2.2 rfl rfl rfl⟩

/-- Claim C5.  For every sequence of legal moves applied to a fresh board,
the number of occupied cells equals the length of the sequence, and on
each step of the sequence the current player toggles exactly when the move
leaves the board still active (so alternation breaks only on a
game-ending move). -/
theorem c5_move_sequence_count_and_alternation (l : List Nat) (b' : Board)
    (h : applyMoves boardInit l = some b') :
    occupied b'.cells = l.length ∧
    ∀ l1 x l2 b1 b2, l = l1 ++ x :: l2 →
      applyMoves boardInit l1 = some b1 → move? b1 x = some b2 →
      ((b2.player = -1 * b1.player ↔ is_active b2 = true) ∧
       (b2.player = b1.player ↔ is_active b2 = false)) := by
  constructor
  · have hmain := (applyMoves_invariant l boardInit b' inv_init h).2
    have h0 : occupied boardInit.cells = 0 := by decide
    rw [hmain, h0, Nat.zero_add]
  · intro l1 x l2 b1 b2 _ h1 h2
    have hInv1 := (applyMoves_invariant l1 boardInit b1 inv_init h1).1
    obtain ⟨_, _, _, hiff1, hiff2⟩ := move_step hInv1 h2
    exact ⟨hiff1, hiff2⟩

/-- Witness for C5: two moves in columns A then B. -/
theorem c5_move_sequence_count_and_alternation_witness :
    occupied ((applyMoves boardInit [0, 1]).getD boardInit).cells = 2 ∧
    (((applyMoves boardInit [0]).getD boardInit).player = -1 * boardInit.player ↔
      is_active ((applyMoves boardInit [0]).getD boardInit) = true) := by
  constructor
  · exact (c5_move_sequence_count_and_alternation [0, 1] _ rfl).1
  · exact ((c5_move_sequence_count_and_alternation [0, 1] _ rfl).2
      [] 0 [1] boardInit ((applyMoves boardInit [0]).getD boardInit) rfl rfl rfl).1

/-- Claim C3, amended.  `Board.wins` returns `EMPTY` exactly when no
colour has a four-in-a-row; and whenever some non-empty colour has a
four-in-a-row and it is the only such colour (which is the case on every
board reachable in play), `wins` returns that colour.  The
characterisation through `hasRun` is independent of the scan order and
depends only on the cell contents. -/
theorem c3_wins_iff_unique_run (cells : Cells) :
    (wins cells = 0 ↔ ∀ c, c ≠ 0 → ¬ hasRun cells c) ∧
    (∀ c, c ≠ 0 → hasRun cells c →
      (∀ c', c' ≠ 0 → hasRun cells c' → c' = c) → wins cells = c) := by
  refine ⟨wins_eq_zero_iff cells, ?_⟩
  intro c hc hrun huniq
  have hne : wins cells ≠ 0 := by
    intro h0
    exact (wins_eq_zero_iff cells).mp h0 c hc hrun
  exact huniq (wins cells) hne (hasRun_wins hne)

/-- Counterexample for C3 as frozen: on a board holding both a red and a
yellow four-in-a-row (unreachable in play but a board all the same),
`wins` returns only the colour found first in scan order — here red — so
it does not return "that colour" for the yellow run. -/
theorem c3_two_runs_counterexample :
    hasRun twoRunCells YELLOW ∧ wins twoRunCells = RED ∧ wins twoRunCells ≠ YELLOW := by
  refine ⟨by decide, by decide, by decide⟩

/-- Witness for C3: a board whose only run is red. -/
theorem c3_wins_iff_unique_run_witness :
    hasRun redRunCells RED ∧ wins redRunCells = RED := by
  refine ⟨by decide, ?_⟩
  refine (c3_wins_iff_unique_run redRunCells).2 RED (by decide) (by decide) ?_
  intro c' hc' hrun'
  by_cases h1 : c' = RED
  · exact h1
  · exfalso
    obtain ⟨d, hd, x, hx, y, hy, hr⟩ := hrun'
    have hval := (hr 0 (by omega)).2
    have hcases : ∀ x' ∈ intRange 7, ∀ y' ∈ intRange 6,
        getCellI redRunCells (x' + d.1 * ((0 : Nat) : Int)) (y' + d.2 * ((0 : Nat) : Int)) = 0 ∨
        getCellI redRunCells (x' + d.1 * ((0 : Nat) : Int)) (y' + d.2 * ((0 : Nat) : Int)) = 1 ∨
        getCellI redRunCells (x' + d.1 * ((0 : Nat) : Int)) (y' + d.2 * ((0 : Nat) : Int)) = -1 := by
      simp only [Nat.cast_zero, mul_zero, add_zero]
      decide
    have hnoy : ¬ hasRun redRunCells (-1) := by decide
    rcases hcases x hx y hy with h | h | h
    · exact hc' (hval.symm.trans h)
    · exact h1 (hval.symm.trans h)
    · have hc'' : c' = -1 := hval.symm.trans h
      subst hc''
      exact hnoy ⟨d, hd, x, hx, y, hy, hr⟩

/-- Claim C2.  Whenever the (possibly rewritten) reply fails to parse,
lacks a usable `move_column`, names a string that does not occur in
`"ABCDEFG"`, or resolves to a full column, `process_move` leaves the board
unchanged except for setting `forfeit` and handing the win to the
opponent of the player to move; win detection never runs, and the board
is no longer active. -/
theorem c2_invalid_reply_forfeits (parse : List Char → Option ParsedReply)
    (reply : List Char) (b : Board)
    (hfail : parse (rewriteReply reply) = none ∨
      ∃ r, parse (rewriteReply reply) = some r ∧
        (r.move_column = none ∨ r.move_column = some [] ∨
         (∃ s, r.move_column = some s ∧ s ≠ [] ∧
            pyFind colsChars (s.map Char.toUpper) = -1) ∨
         (∃ (s : List Char) (j : Nat), r.move_column = some s ∧ s ≠ [] ∧
            pyFind colsChars (s.map Char.toUpper) = (j : Int) ∧ j ≤ 6 ∧
            height b.cells j = 6))) :
    process_move parse reply b = forfeitBoard b ∧
      ((b.player = 1 ∨ b.player = -1) →
        is_active (process_move parse reply b) = false) := by
  have heq := process_move_fail_eq hfail
  refine ⟨heq, ?_⟩
  intro hp
  rw [heq]
  unfold is_active forfeitBoard
  rcases hp with h | h <;> simp [h]

/-- Witness for C2: an unparsable reply on the fresh board. -/
theorem c2_invalid_reply_forfeits_witness :
    process_move jsonParse ['n', 'o', 'p', 'e'] boardInit = forfeitBoard boardInit ∧
    is_active (process_move jsonParse ['n', 'o', 'p', 'e'] boardInit) = false := by
  have h := c2_invalid_reply_forfeits jsonParse ['n', 'o', 'p', 'e'] boardInit
    (Or.inl (by decide))
  exact ⟨h.1, h.2 (Or.inl rfl)⟩

/-- Claim C10.  Whenever `process_move` takes the failure path — the only
way `forfeit` can become true — the board's cells, current player, draw
flag and latest-move coordinates are exactly as before the call; only
`forfeit` and `winner` change. -/
theorem c10_failure_frame (parse : List Char → Option ParsedReply) (reply : List Char)
    (b : Board) (h0 : b.forfeit = false)
    (h1 : (process_move parse reply b).forfeit = true) :
    (process_move parse reply b).cells = b.cells ∧
    (process_move parse reply b).player = b.player ∧
    (process_move parse reply b).draw = b.draw ∧
    (process_move parse reply b).latest_x = b.latest_x ∧
    (process_move parse reply b).latest_y = b.latest_y ∧
    process_move parse reply b = { b with forfeit := true, winner := -1 * b.player } := by
  have heq : process_move parse reply b = forfeitBoard b := by
    rcases process_move_forfeit_or_move parse reply b with h | ⟨k, h⟩
    · exact h
    · exfalso
      rw [h, moveCore_forfeit] at h1
      rw [h0] at h1
      exact Bool.false_ne_true h1
  rw [heq]
  exact ⟨rfl, rfl, rfl, rfl, rfl, rfl⟩

/-- Witness for C10: a three-character reply that is not braced, hence
unparsable, on the fresh board. -/
theorem c10_failure_frame_witness :
    boardInit.forfeit = false ∧
    process_move jsonParse ['b', 'a', 'd'] boardInit =
      { boardInit with forfeit := true, winner := -1 * boardInit.player } :=
  ⟨rfl, (c10_failure_frame jsonParse ['b', 'a', 'd'] boardInit rfl (by decide)).2.2.2.2.2⟩

/-- Claim C9.  The validation of `process_move` accepts every non-empty
`move_column` whose uppercase form occurs contiguously in `"ABCDEFG"`:
`str.find` locates its first occurrence, whose index names the column of
the string's first character, and the move is played there unless that
column is full; a non-empty string with no such occurrence resolves to
`-1` and forfeits. -/
theorem c9_substring_resolution (parse : List Char → Option ParsedReply)
    (reply : List Char) (b : Board) (r : ParsedReply) (s : List Char)
    (hp : parse (rewriteReply reply) = some r) (hmc : r.move_column = some s)
    (hne : s ≠ []) :
    (isSubstring colsChars (s.map Char.toUpper) →
      ∃ j : Nat, pyFind colsChars (s.map Char.toUpper) = (j : Int) ∧ j ≤ 6 ∧
        colsChars.getD j ' ' = (s.map Char.toUpper).headD ' ' ∧
        process_move parse reply b =
          (if height b.cells j = 6 then forfeitBoard b else moveCore b j)) ∧
    (¬ isSubstring colsChars (s.map Char.toUpper) →
      process_move parse reply b = forfeitBoard b) := by
  have hres : resolveMove r = s := by
    cases s with
    | nil => exact absurd rfl hne
    | cons a t => rw [resolveMove, hmc]
  have hne' : s.map Char.toUpper ≠ [] := by
    cases s with
    | nil => exact absurd rfl hne
    | cons a t => simp
  constructor
  · intro hsub
    obtain ⟨j, hj, hat⟩ := pyFind_found hsub
    have hlen1 : (s.map Char.toUpper).length ≠ 0 := by
      simpa using hne'
    have hj6 : j ≤ 6 := by
      have := hat.1
      have hcols : colsChars.length = 7 := rfl
      omega
    refine ⟨j, hj, hj6, isSubAt_head hne' hat, ?_⟩
    rw [process_move_parsed b hp, hres, hj]
    rw [if_pos ⟨by exact_mod_cast Nat.zero_le j, by exact_mod_cast hj6⟩]
    rw [Int.toNat_natCast]
  · intro hnsub
    rw [process_move_parsed b hp, hres, pyFind_none hnsub]
    rw [if_neg (by norm_num)]

/-- Witness for C9: the reply object `{"move_column": "cd"}` resolves to
column C on the fresh board. -/
theorem c9_substring_resolution_witness :
    isSubstring colsChars (['c', 'd'].map Char.toUpper) ∧
    process_move jsonParse (jsonPrefix ++ ['c', 'd'] ++ jsonSuffix) boardInit =
      moveCore boardInit 2 := by
  have hp : jsonParse (rewriteReply (jsonPrefix ++ ['c', 'd'] ++ jsonSuffix)) =
      some ⟨some ['c', 'd']⟩ := by decide
  have h := (c9_substring_resolution jsonParse (jsonPrefix ++ ['c', 'd'] ++ jsonSuffix)
    boardInit ⟨some ['c', 'd']⟩ ['c', 'd'] hp rfl (by decide)).1 (by decide)
  obtain ⟨j, hj, _, _, hpp⟩ := h
  have hfind2 : pyFind colsChars (['c', 'd'].map Char.toUpper) = (2 : Int) := by decide
  have hj2 : j = 2 := by
    rw [hfind2] at hj
    omega
  subst hj2
  refine ⟨by decide, ?_⟩
  rw [hpp]
  rw [if_neg (by decide)]

/-- Counterexample for C7 as frozen: the letter `R` names no column
(columns are `A`–`G`), so on the fresh board — where every actual column
is legal — the reply `{R}` is rewritten to `{"move_column": "R"}`, fails
validation, and forfeits instead of producing a move. -/
theorem c7_brace_r_forfeits :
    process_move jsonParse ['\x7b', 'R', '\x7d'] boardInit = forfeitBoard boardInit ∧
    (process_move jsonParse ['\x7b', 'R', '\x7d'] boardInit).forfeit = true ∧
    legal_moves boardInit = colsChars := by
  refine ⟨by decide, by decide, by decide⟩

/-- Claim C7, amended.  A raw reply that is exactly the three characters
`{X}` is processed identically to the fabricated object
`'{"move_column": "X"}'`, for every middle character `X`; when `X`
actually names a legal column — for example `C` on the fresh board — the
move is played there rather than forfeiting.  (A letter outside `A`–`G`,
such as `R`, still forfeits because it names no column.) -/
theorem c7_triple_braced_reply (parse : List Char → Option ParsedReply) (b : Board)
    (c : Char) :
    process_move parse ['\x7b', c, '\x7d'] b = process_move parse (mkMoveJson c) b ∧
    process_move jsonParse ['\x7b', 'C', '\x7d'] boardInit = moveCore boardInit 2 := by
  constructor
  · have hrw : rewriteReply ['\x7b', c, '\x7d'] = mkMoveJson c := by
      show (if '\x7b' = '\x7b' ∧ '\x7d' = '\x7d' then mkMoveJson c
        else ['\x7b', c, '\x7d']) = mkMoveJson c
      rw [if_pos ⟨rfl, rfl⟩]
    have hrw2 : rewriteReply (mkMoveJson c) = mkMoveJson c := rfl
    unfold process_move
    rw [hrw, hrw2]
  · decide

/-- Claim C4.  `update_ratings` computes both new ratings from the two
pre-update ratings (simultaneous update with the stored K-factor and
`expected_a = 1 / (1 + 10 ^ ((rating_b - rating_a) / 400))`), and for two
fresh identifiers at the default 1000 and one decisive red win,
`calculate_elo_ratings` puts red strictly above 1000 and yellow strictly
below, with red's gain exactly equal to yellow's loss. -/
theorem c4_elo_simultaneous_update :
    (∀ (c : EloCalculator) (a b : String) (sa sb : ℝ), a ≠ b →
      (update_ratings c a b sa sb).ratings a =
        some (get_player_rating c a + c.k_factor *
          (sa - calculate_expected_score c (get_player_rating c a)
            (get_player_rating c b))) ∧
      (update_ratings c a b sa sb).ratings b =
        some (get_player_rating c b + c.k_factor *
          (sb - (1 - calculate_expected_score c (get_player_rating c a)
            (get_player_rating c b))))) ∧
    (∃ ra rb : ℝ,
      calculate_elo_ratings [⟨"red", "yellow", true, false, 0⟩] true "red" = some ra ∧
      calculate_elo_ratings [⟨"red", "yellow", true, false, 0⟩] true "yellow" = some rb ∧
      1000 < ra ∧ rb < 1000 ∧ ra - 1000 = 1000 - rb) := by
  constructor
  · intro c a b sa sb hab
    constructor
    · simp only [update_ratings]
      rw [if_neg hab, if_true]
    · simp only [update_ratings]
      rw [if_true]
  · have hstep : calculate_elo_ratings [⟨"red", "yellow", true, false, 0⟩] true =
        (update_ratings eloInit "red" "yellow" 1 0).ratings := rfl
    have hgr : get_player_rating eloInit "red" = 1000 := rfl
    have hgy : get_player_rating eloInit "yellow" = 1000 := rfl
    have hk : eloInit.k_factor = 32 := rfl
    have h1 : (update_ratings eloInit "red" "yellow" 1 0).ratings "red" =
        some (1016 : ℝ) := by
      simp only [update_ratings]
      rw [if_neg (by decide), if_true]
      rw [hgr, hgy, expected_score_equal, hk]
      exact congrArg some (by norm_num)
    have h2 : (update_ratings eloInit "red" "yellow" 1 0).ratings "yellow" =
        some (984 : ℝ) := by
      simp only [update_ratings]
      rw [if_true]
      rw [hgr, hgy, expected_score_equal, hk]
      exact congrArg some (by norm_num)
    refine ⟨1016, 984, ?_, ?_, by norm_num, by norm_num, by norm_num⟩
    · rw [hstep]; exact h1
    · rw [hstep]; exact h2

/-- Witness for C4: two distinct fresh identifiers, a win for the first. -/
theorem c4_elo_simultaneous_update_witness :
    ("p" : String) ≠ "q" ∧
    (update_ratings eloInit "p" "q" 1 0).ratings "p" =
      some (get_player_rating eloInit "p" + eloInit.k_factor *
        (1 - calculate_expected_score eloInit (get_player_rating eloInit "p")
          (get_player_rating eloInit "q"))) :=
  ⟨by decide, (c4_elo_simultaneous_update.1 eloInit "p" "q" 1 0 (by decide)).1⟩

/-- Claim C8.  With self-play exclusion enabled, a result whose red and
yellow identifiers coincide contributes nothing to the fold: inserting it
anywhere into (or removing it from) an ordered result list leaves every
identifier's final rating unchanged. -/
theorem c8_self_play_no_effect (l1 l2 : List Result) (r : Result)
    (h : r.red_player = r.yellow_player) :
    calculate_elo_ratings (l1 ++ r :: l2) true = calculate_elo_ratings (l1 ++ l2) true := by
  unfold calculate_elo_ratings
  rw [List.foldl_append, List.foldl_append, List.foldl_cons, elo_step_self h]

/-- Witness for C8: a self-play result for `"a"` inserted before an
ordinary result. -/
theorem c8_self_play_no_effect_witness :
    (Result.mk "a" "a" true false 0).red_player =
      (Result.mk "a" "a" true false 0).yellow_player ∧
    calculate_elo_ratings
        ([] ++ Result.mk "a" "a" true false 0 :: [Result.mk "a" "b" true false 0]) true =
      calculate_elo_ratings ([] ++ [Result.mk "a" "b" true false 0]) true :=
  ⟨rfl, c8_self_play_no_effect [] [Result.mk "a" "b" true false 0]
    (Result.mk "a" "a" true false 0) rfl⟩

end C4
